import Mathlib

/-!
Verification of the LLDP topology-discovery core (`model.py`, `export_vis.py`).

The Python pipeline is shallowly embedded: dictionaries become association
lists written left-to-right with overwrite-in-place semantics (`dinsert` /
`dictOf`), Python sets become `Finset`s or duplicate-free insertion lists,
and iteration order follows the source's loop order.
-/

namespace SonicLldp

/-- One interface-status record; every field is optional, mirroring a Python
dict whose keys may be absent (`m.get(...)`). -/
structure IfaceRec where
  alias' : Option String := none
  status : Option String := none
  speed : Option String := none
  mtu : Option String := none
  fec : Option String := none
  type : Option String := none
  vlan : Option String := none
deriving DecidableEq

/-- One scraped LLDP neighbor entry; fields may be missing. -/
structure LldpEntry where
  local_port : Option String := none
  remote_dev : Option String := none
  remote_port : Option String := none
deriving DecidableEq

/-- Per-device raw snapshot: `interfaces`, `lldp`, `vlan_membership`.
Missing payload sections are the empty list. -/
structure DeviceData where
  interfaces : List (String × IfaceRec) := []
  lldp : List LldpEntry := []
  vlan_membership : List (String × List String) := []
deriving DecidableEq

/-- The whole input snapshot: device name to payload (a Python dict,
embedded as an association list in iteration order). -/
abbrev Snapshot := List (String × DeviceData)

/-- A directed raw edge `(dev, local_port, remote_dev, remote_port)`. -/
structure RawEdge where
  a_dev : String
  a_port : String
  b_dev : String
  b_port : String
deriving DecidableEq

/-- A segment edge `(dev, port, segment_name)`. -/
structure SegEdge where
  dev : String
  port : String
  seg : String
deriving DecidableEq

/-- Port metadata with the defaults of `model.PortMeta`. -/
structure PortMeta where
  alias' : String := "???"
  status : String := "?"
  speed : String := "N/A"
  mtu : String := "N/A"
  fec : String := "N/A"
  type : String := "N/A"
  vlan : Option String := none
deriving DecidableEq

/-- The f-string `f"{dev}:{port}"` used as a PortMeta dictionary key. -/
def portKey (dev port : String) : String :=
  dev ++ ":" ++ port

/-- The segment-node name `f"SEG:{dev}:{port}"`. -/
def segName (dev port : String) : String :=
  "SEG:" ++ dev ++ ":" ++ port

/-- Python dict assignment `d[k] = v` on an association list: overwrite in
place if the key exists, append otherwise. -/
def dinsert (k : String) (v : α) : List (String × α) → List (String × α)
  | [] => [(k, v)]
  | (k', v') :: rest =>
    if k' = k then (k, v) :: rest else (k', v') :: dinsert k v rest

/-- A dict built by performing the writes `ws` in order on an empty dict. -/
def dictOf (ws : List (String × α)) : List (String × α) :=
  ws.foldl (fun acc kv => dinsert kv.1 kv.2 acc) []

/-- The key list of an association-list dict. -/
def dkeys (d : List (String × α)) : List String :=
  d.map Prod.fst

/-- Python truthiness of an optional string: `None` and `""` are falsy. -/
def truthy : Option String → Bool
  | none => false
  | some s => !(s = "")

/-- The raw edge `normalize_edges` emits for one lldp entry of device
`dev`, if any: all three fields must be truthy and `(dev, local_port)`
must not be ignored. -/
def emitEdge (ignore : Finset (String × String)) (dev : String)
    (link : LldpEntry) : Option RawEdge :=
  match link.local_port, link.remote_dev, link.remote_port with
  | some lp, some rd, some rp =>
    if lp = "" ∨ rd = "" ∨ rp = "" then none
    else if (dev, lp) ∈ ignore then none
    else some ⟨dev, lp, rd, rp⟩
  | _, _, _ => none

/-- `model.normalize_edges`: returns `(devices, interfaces, raw_edges,
vlan_membership)`.  Devices start as the snapshot key set and every emitted
edge's remote device is added. -/
def normalize_edges (td : Snapshot) (ignore : Finset (String × String)) :
    Finset String × List (String × List (String × IfaceRec)) ×
      List RawEdge × List (String × List (String × List String)) :=
  let interfaces := td.map (fun dd => (dd.1, dd.2.interfaces))
  let vm := td.map (fun dd => (dd.1, dd.2.vlan_membership))
  let raw_edges := td.flatMap (fun dd => dd.2.lldp.filterMap (emitEdge ignore dd.1))
  let devices := raw_edges.foldl (fun acc e => insert e.b_dev acc)
    (td.map Prod.fst).toFinset
  (devices, interfaces, raw_edges, vm)

/-- The per-port remote-device sets of `detect_anomalous_ports`
(`per_dev_port_remotes`), as a function from `(device, local_port)`. -/
def per_dev_port_remotes (raw_edges : List RawEdge) :
    String × String → Finset String :=
  raw_edges.foldl
    (fun acc e dp =>
      if dp = (e.a_dev, e.a_port) then insert e.b_dev (acc dp) else acc dp)
    (fun _ => (∅ : Finset String))

/-- `model.detect_anomalous_ports`: the set of local `(device, port)` pairs
whose raw edges mention more than one distinct remote device. -/
def detect_anomalous_ports (raw_edges : List RawEdge) :
    Finset (String × String) :=
  ((raw_edges.map (fun e => (e.a_dev, e.a_port))).toFinset).filter
    (fun dp => 1 < (per_dev_port_remotes raw_edges dp).card)

/-- `model.segmentize_edges`: split raw edges into point-to-point
candidates and segment data, by whether the local port is anomalous. -/
def segmentize_edges (raw_edges : List RawEdge)
    (anomalous : Finset (String × String)) :
    List RawEdge × List SegEdge × (String → Finset (String × String)) ×
      Finset String :=
  match raw_edges with
  | [] => ([], [], fun _ => ∅, ∅)
  | e :: rest =>
    let r := segmentize_edges rest anomalous
    if (e.a_dev, e.a_port) ∈ anomalous then
      let s := segName e.a_dev e.a_port
      (r.1, ⟨e.a_dev, e.a_port, s⟩ :: r.2.1,
        fun x => if x = s then insert (e.b_dev, e.b_port) (r.2.2.1 x)
          else r.2.2.1 x,
        insert s r.2.2.2)
    else
      (e :: r.1, r.2.1, r.2.2.1, r.2.2.2)

/-- Python tuple comparison `(a, b) < (c, d)`: lexicographic. -/
def pairLt (x y : String × String) : Prop :=
  x.1 < y.1 ∨ (x.1 = y.1 ∧ x.2 < y.2)

instance (x y : String × String) : Decidable (pairLt x y) :=
  decidable_of_iff
    (x.1.toList < y.1.toList ∨ (x.1 = y.1 ∧ x.2.toList < y.2.toList))
    (by rw [pairLt, String.lt_iff_toList_lt, String.lt_iff_toList_lt])

/-- Endpoint canonicalization of `dedup_bidirectional_edges`: put the
smaller `(device, port)` pair first. -/
def canonEdge (e : RawEdge) : RawEdge :=
  if pairLt (e.b_dev, e.b_port) (e.a_dev, e.a_port) then
    ⟨e.b_dev, e.b_port, e.a_dev, e.a_port⟩
  else e

/-- The mirror image of a directed raw edge. -/
def mirrorEdge (e : RawEdge) : RawEdge :=
  ⟨e.b_dev, e.b_port, e.a_dev, e.a_port⟩

/-- The loop of `dedup_bidirectional_edges`, with its `seen` set. -/
def dedupGo (seen : Finset RawEdge) : List RawEdge → List RawEdge
  | [] => []
  | e :: rest =>
    let c := canonEdge e
    if c ∈ seen then dedupGo seen rest
    else c :: dedupGo (insert c seen) rest

/-- `model.dedup_bidirectional_edges`: canonicalize each edge and keep the
first occurrence per canonical key. -/
def dedup_bidirectional_edges (raw_edges : List RawEdge) : List RawEdge :=
  dedupGo ∅ raw_edges

/-- `ports_by_device[d].add(p)` on an insertion-ordered association list of
duplicate-free port lists. -/
def addPort (acc : List (String × List String)) (d p : String) :
    List (String × List String) :=
  match acc with
  | [] => [(d, [p])]
  | (d', ps) :: rest =>
    if d' = d then (d', if p ∈ ps then ps else ps ++ [p]) :: rest
    else (d', ps) :: addPort rest d p

/-- The `ports_by_device` of `build_model`: only ports that occur in final
point-to-point or segment edges. -/
def model_ports_by_device (p2p_edges : List RawEdge)
    (seg_edges : List SegEdge) : List (String × List String) :=
  let acc1 := p2p_edges.foldl
    (fun acc e => addPort (addPort acc e.a_dev e.a_port) e.b_dev e.b_port) []
  seg_edges.foldl (fun acc s => addPort acc s.dev s.port) acc1

/-- The `PortMeta` object built for one port, with defaults where the
interface record or its fields are missing. -/
def mkPortMeta (interfaces : List (String × List (String × IfaceRec)))
    (dev p : String) : PortMeta :=
  let mo : Option IfaceRec := ((interfaces.lookup dev).getD []).lookup p
  { alias' := ((mo.bind IfaceRec.alias').getD "???"),
    status := ((mo.bind IfaceRec.status).getD "?"),
    speed := ((mo.bind IfaceRec.speed).getD "N/A"),
    mtu := ((mo.bind IfaceRec.mtu).getD "N/A"),
    fec := ((mo.bind IfaceRec.fec).getD "N/A"),
    type := ((mo.bind IfaceRec.type).getD "N/A"),
    vlan := mo.bind IfaceRec.vlan }

/-- `model.build_port_meta`: one dict write per `(device, port)` of
`ports_by_device`, keyed by `"device:port"`. -/
def build_port_meta (interfaces : List (String × List (String × IfaceRec)))
    (ports_by_device : List (String × List String)) :
    List (String × PortMeta) :=
  dictOf (ports_by_device.flatMap
    (fun dp => dp.2.map (fun p => (portKey dp.1 p, mkPortMeta interfaces dp.1 p))))

/-- The complete topology model of `model.TopologyModel`. -/
structure TopologyModel where
  devices : Finset String
  interfaces : List (String × List (String × IfaceRec))
  port_meta : List (String × PortMeta)
  p2p_edges : List RawEdge
  seg_nodes : Finset String
  seg_edges : List SegEdge
  seg_members : String → Finset (String × String)
  anomalous_ports : Finset (String × String)
  vlan_membership : List (String × List (String × List String))

/-- `model.build_model`: the full pipeline. -/
def build_model (td : Snapshot)
    (ignore : Finset (String × String) := ∅) : TopologyModel :=
  let norm := normalize_edges td ignore
  let raw_edges := norm.2.2.1
  let anomalous := detect_anomalous_ports raw_edges
  let segres := segmentize_edges raw_edges anomalous
  let p2p_edges := dedup_bidirectional_edges segres.1
  let pbd := model_ports_by_device p2p_edges segres.2.1
  ⟨norm.1, norm.2.1, build_port_meta norm.2.1 pbd, p2p_edges,
    segres.2.2.2, segres.2.1, segres.2.2.1, anomalous, norm.2.2.2⟩

/-- The `(device, port)` pairs referenced by the model's final
point-to-point edges (both endpoints) or segment edges (local endpoint). -/
def refPorts (m : TopologyModel) : Finset (String × String) :=
  (m.p2p_edges.flatMap
      (fun e => [(e.a_dev, e.a_port), (e.b_dev, e.b_port)]) ++
    m.seg_edges.map (fun s => (s.dev, s.port))).toFinset

/-- Port `p` of device `d` is recorded in a `ports_by_device` table. -/
def PMem (acc : List (String × List String)) (d p : String) : Prop :=
  ∃ ps, (d, ps) ∈ acc ∧ p ∈ ps

instance (acc : List (String × List String)) (d p : String) :
    Decidable (PMem acc d p) :=
  decidable_of_iff (∃ ps ∈ acc.map Prod.snd, (d, ps) ∈ acc ∧ p ∈ ps) (by
    constructor
    · rintro ⟨ps, _, hps, hp⟩; exact ⟨ps, hps, hp⟩
    · rintro ⟨ps, hps, hp⟩
      exact ⟨ps, List.mem_map_of_mem Prod.snd hps, hps, hp⟩)

/-- Two raw edges relate the same unordered endpoint pair. -/
def sameEnds (z w : RawEdge) : Prop :=
  z = w ∨ z = mirrorEdge w

instance (z w : RawEdge) : Decidable (sameEnds z w) := by
  unfold sameEnds; infer_instance

/-- The distinct remote devices the raw edges mention on local port
`(d, p)`. -/
def remoteDevs (raw_edges : List RawEdge) (dp : String × String) :
    Finset String :=
  ((raw_edges.filter
      (fun e => decide ((e.a_dev, e.a_port) = dp))).map RawEdge.b_dev).toFinset

/-- The `ports_by_device` of `export_vis._make_payload`: all interface
ports, plus every port referenced by a point-to-point or segment edge. -/
def payloadPorts (m : TopologyModel) : List (String × List String) :=
  let acc0 := m.interfaces.foldl
    (fun acc di => di.2.foldl (fun a pr => addPort a di.1 pr.1) acc) []
  let acc1 := m.p2p_edges.foldl
    (fun acc e => addPort (addPort acc e.a_dev e.a_port) e.b_dev e.b_port) acc0
  m.seg_edges.foldl (fun acc s => addPort acc s.dev s.port) acc1

/-- The dict writes performed while building `port_to_vlan` in
`_make_payload`, in loop order. -/
def vlanWrites (m : TopologyModel) : List (String × String) :=
  (payloadPorts m).flatMap (fun dp =>
    match m.vlan_membership.lookup dp.1 with
    | none => []
    | some vt => vt.flatMap
        (fun vp => vp.2.map (fun port => (portKey dp.1 port, vp.1))))

/-- The `port_to_vlan` reverse mapping of `_make_payload`. -/
def port_to_vlan (m : TopologyModel) : List (String × String) :=
  dictOf (vlanWrites m)

/-- The JSON-able metadata `_make_payload` emits for one port.  Both
branches take the final VLAN from `port_to_vlan`. -/
def mkPayloadMeta (m : TopologyModel) (dev port : String) : PortMeta :=
  let key := portKey dev port
  let vlan_id := (port_to_vlan m).lookup key
  match m.port_meta.lookup key with
  | some pm => { pm with vlan := vlan_id }
  | none =>
    let mo : Option IfaceRec := ((m.interfaces.lookup dev).getD []).lookup port
    { alias' := ((mo.bind IfaceRec.alias').getD "???"),
      status := ((mo.bind IfaceRec.status).getD "?"),
      speed := ((mo.bind IfaceRec.speed).getD "N/A"),
      mtu := ((mo.bind IfaceRec.mtu).getD "N/A"),
      fec := ((mo.bind IfaceRec.fec).getD "N/A"),
      type := ((mo.bind IfaceRec.type).getD "N/A"),
      vlan := vlan_id }

/-- The dict writes of the payload `port_meta` loop, in loop order. -/
def payloadMetaWrites (m : TopologyModel) : List (String × PortMeta) :=
  (payloadPorts m).flatMap (fun dp =>
    dp.2.map (fun port => (portKey dp.1 port, mkPayloadMeta m dp.1 port)))

/-- The `port_meta` dictionary of the exported payload. -/
def payload_port_meta (m : TopologyModel) : List (String × PortMeta) :=
  dictOf (payloadMetaWrites m)

theorem mem_dkeys_dinsert {α : Type} (k K : String) (v : α)
    (d : List (String × α)) :
    K ∈ dkeys (dinsert k v d) ↔ K = k ∨ K ∈ dkeys d := by
  induction d with
  | nil => simp [dinsert, dkeys]
  | cons kv rest ih =>
    obtain ⟨k', v'⟩ := kv
    by_cases h : k' = k
    · subst h
      simp [dinsert, dkeys]
    · simp [dinsert, h, dkeys] at ih ⊢
      tauto

theorem nodup_dkeys_dinsert {α : Type} (k : String) (v : α)
    {d : List (String × α)} (hd : (dkeys d).Nodup) :
    (dkeys (dinsert k v d)).Nodup := by
  induction d with
  | nil => simp [dinsert, dkeys]
  | cons kv rest ih =>
    obtain ⟨k', v'⟩ := kv
    simp only [dkeys, List.map_cons, List.nodup_cons] at hd
    by_cases h : k' = k
    · subst h
      simpa [dinsert, dkeys] using hd
    · have := ih hd.2
      simp only [dinsert, h, if_false, dkeys, List.map_cons, List.nodup_cons]
      refine ⟨?_, this⟩
      rw [show List.map Prod.fst (dinsert k v rest) = dkeys (dinsert k v rest)
        from rfl, mem_dkeys_dinsert]
      rintro (rfl | hmem)
      · exact h rfl
      · exact hd.1 hmem

theorem lookup_dinsert_self {α : Type} (k : String) (v : α)
    (d : List (String × α)) : (dinsert k v d).lookup k = some v := by
  induction d with
  | nil => simp [dinsert]
  | cons kv rest ih =>
    obtain ⟨k', v'⟩ := kv
    by_cases h : k' = k
    · subst h; simp [dinsert]
    · have hbf : (k == k') = false :=
        beq_false_of_ne (fun hh => h hh.symm)
      simp [dinsert, h, List.lookup_cons, hbf, ih]

theorem lookup_dinsert_ne {α : Type} {k K : String} (v : α)
    (d : List (String × α)) (h : K ≠ k) :
    (dinsert k v d).lookup K = d.lookup K := by
  have hKk : (K == k) = false := beq_false_of_ne h
  induction d with
  | nil => simp [dinsert, List.lookup_cons, hKk]
  | cons kv rest ih =>
    obtain ⟨k', v'⟩ := kv
    by_cases h' : k' = k
    · subst h'
      simp [dinsert, List.lookup_cons, hKk]
    · by_cases h'' : K = k'
      · subst h''; simp [dinsert, h', List.lookup_cons]
      · have hbf : (K == k') = false := beq_false_of_ne h''
        simp [dinsert, h', List.lookup_cons, hbf, ih]

theorem mem_dkeys_foldl_dinsert {α : Type} (ws : List (String × α))
    (acc : List (String × α)) (K : String) :
    K ∈ dkeys (ws.foldl (fun a kv => dinsert kv.1 kv.2 a) acc) ↔
      K ∈ dkeys acc ∨ ∃ kv ∈ ws, kv.1 = K := by
  induction ws generalizing acc with
  | nil => simp
  | cons kv rest ih =>
    simp only [List.foldl_cons, ih, mem_dkeys_dinsert, List.mem_cons]
    constructor
    · rintro ((rfl | h) | h)
      · exact Or.inr ⟨kv, Or.inl rfl, rfl⟩
      · exact Or.inl h
      · obtain ⟨x, hx, hxk⟩ := h
        exact Or.inr ⟨x, Or.inr hx, hxk⟩
    · rintro (h | ⟨x, (rfl | hx), hxk⟩)
      · exact Or.inl (Or.inr h)
      · exact Or.inl (Or.inl hxk.symm)
      · exact Or.inr ⟨x, hx, hxk⟩

theorem mem_dkeys_dictOf {α : Type} (ws : List (String × α)) (K : String) :
    K ∈ dkeys (dictOf ws) ↔ ∃ kv ∈ ws, kv.1 = K := by
  rw [dictOf, mem_dkeys_foldl_dinsert]
  simp [dkeys]

theorem nodup_dkeys_dictOf {α : Type} (ws : List (String × α)) :
    (dkeys (dictOf ws)).Nodup := by
  rw [dictOf]
  have : ∀ (l : List (String × α)) (acc : List (String × α)),
      (dkeys acc).Nodup →
      (dkeys (l.foldl (fun a kv => dinsert kv.1 kv.2 a) acc)).Nodup := by
    intro l
    induction l with
    | nil => intro acc h; simpa using h
    | cons kv rest ih =>
      intro acc h
      exact ih _ (nodup_dkeys_dinsert kv.1 kv.2 h)
  exact this ws [] (by simp [dkeys])

theorem lookup_foldl_dinsert_stable {α : Type} {ws : List (String × α)}
    {K : String} {V : α}
    (hws : ∀ kv ∈ ws, kv.1 = K → kv.2 = V) :
    ∀ acc : List (String × α), acc.lookup K = some V →
      (ws.foldl (fun a kv => dinsert kv.1 kv.2 a) acc).lookup K = some V := by
  induction ws with
  | nil => intro acc h; simpa using h
  | cons kv rest ih =>
    intro acc h
    simp only [List.foldl_cons]
    refine ih (fun x hx hxk => hws x (List.mem_cons_of_mem kv hx) hxk) _ ?_
    by_cases hk : kv.1 = K
    · have hv : kv.2 = V := hws kv (List.mem_cons_self kv rest) hk
      rw [← hk, lookup_dinsert_self, hv]
    · rw [lookup_dinsert_ne _ _ (fun h' => hk h'.symm)]
      exact h

theorem lookup_foldl_dinsert_of_mem {α : Type} {ws : List (String × α)}
    {K : String} {V : α}
    (hws : ∀ kv ∈ ws, kv.1 = K → kv.2 = V)
    (hmem : ∃ kv ∈ ws, kv.1 = K) :
    ∀ acc : List (String × α),
      (ws.foldl (fun a kv => dinsert kv.1 kv.2 a) acc).lookup K = some V := by
  induction ws with
  | nil => simp at hmem
  | cons kv rest ih =>
    intro acc
    simp only [List.foldl_cons]
    by_cases hk : kv.1 = K
    · have hv : kv.2 = V := hws kv (List.mem_cons_self kv rest) hk
      refine lookup_foldl_dinsert_stable
        (fun x hx hxk => hws x (List.mem_cons_of_mem kv hx) hxk) _ ?_
      rw [← hk, lookup_dinsert_self, hv]
    · obtain ⟨x, hx, hxk⟩ := hmem
      rcases List.mem_cons.mp hx with rfl | hx
      · exact absurd hxk hk
      · exact ih (fun y hy hyk => hws y (List.mem_cons_of_mem kv hy) hyk)
          ⟨x, hx, hxk⟩ _

theorem lookup_dictOf {α : Type} {ws : List (String × α)} {K : String}
    {V : α} (hws : ∀ kv ∈ ws, kv.1 = K → kv.2 = V)
    (hmem : ∃ kv ∈ ws, kv.1 = K) : (dictOf ws).lookup K = some V :=
  lookup_foldl_dinsert_of_mem hws hmem []

theorem foldl_preserve {α β : Type} {P : α → Prop} {step : α → β → α}
    (hstep : ∀ a x, P a → P (step a x)) :
    ∀ (l : List β) (a : α), P a → P (l.foldl step a) := by
  intro l
  induction l with
  | nil => intro a h; exact h
  | cons x rest ih => intro a h; exact ih _ (hstep a x h)

theorem lookup_mem {α : Type} {l : List (String × α)} {K : String} {v : α}
    (h : l.lookup K = some v) : (K, v) ∈ l := by
  induction l with
  | nil => simp [List.lookup] at h
  | cons kv rest ih =>
    obtain ⟨k', v'⟩ := kv
    by_cases hk : K = k'
    · subst hk
      simp [List.lookup_cons] at h
      simp [h]
    · have hbf : (K == k') = false := beq_false_of_ne hk
      simp [List.lookup_cons, hbf] at h
      exact List.mem_cons_of_mem _ (ih h)

theorem lookup_eq_some_of_mem {α : Type} {l : List (String × α)} {K : String}
    {v : α} (hnd : (dkeys l).Nodup) (hm : (K, v) ∈ l) :
    l.lookup K = some v := by
  induction l with
  | nil => simp at hm
  | cons kv rest ih =>
    obtain ⟨k', v'⟩ := kv
    simp only [dkeys, List.map_cons, List.nodup_cons] at hnd
    rcases List.mem_cons.mp hm with h | h
    · have h1 : K = k' := congrArg Prod.fst h
      have h2 : v = v' := congrArg Prod.snd h
      subst h1; subst h2
      simp [List.lookup_cons]
    · have hk : K ≠ k' := by
        rintro rfl
        exact hnd.1 (List.mem_map_of_mem Prod.fst h)
      have hbf : (K == k') = false := beq_false_of_ne hk
      simp [List.lookup_cons, hbf]
      exact ih hnd.2 h

theorem normalize_raw_edges_eq (td : Snapshot)
    (ignore : Finset (String × String)) :
    (normalize_edges td ignore).2.2.1 =
      td.flatMap (fun dd => dd.2.lldp.filterMap (emitEdge ignore dd.1)) := rfl

theorem foldl_insert_bdev (l : List RawEdge) :
    ∀ s : Finset String,
      l.foldl (fun acc e => insert e.b_dev acc) s =
        s ∪ (l.map RawEdge.b_dev).toFinset := by
  induction l with
  | nil => intro s; simp
  | cons e rest ih =>
    intro s
    rw [List.foldl_cons, ih]
    ext x
    simp [Finset.mem_union, Finset.mem_insert]


theorem emitEdge_isSome_iff (ignore : Finset (String × String))
    (dev : String) (link : LldpEntry) :
    (emitEdge ignore dev link).isSome = true ↔
      ∃ lp rd rp, link = LldpEntry.mk (some lp) (some rd) (some rp) ∧
        lp ≠ "" ∧ rd ≠ "" ∧ rp ≠ "" ∧ (dev, lp) ∉ ignore := by
  obtain ⟨lpo, rdo, rpo⟩ := link
  match lpo, rdo, rpo with
  | none, _, _ => simp [emitEdge]
  | some lp, none, _ => simp [emitEdge]
  | some lp, some rd, none => simp [emitEdge]
  | some lp, some rd, some rp =>
    by_cases h1 : lp = "" ∨ rd = "" ∨ rp = ""
    · have hred : emitEdge ignore dev
          (LldpEntry.mk (some lp) (some rd) (some rp)) = none := by
        simp only [emitEdge]
        rw [if_pos h1]
      rw [hred]
      simp only [Option.isSome_none, Bool.false_eq_true, false_iff]
      rintro ⟨lp', rd', rp', heq, hlp, hrd, hrp, _⟩
      simp only [LldpEntry.mk.injEq, Option.some.injEq] at heq
      obtain ⟨rfl, rfl, rfl⟩ := heq
      rcases h1 with h | h | h
      exacts [hlp h, hrd h, hrp h]
    · push_neg at h1
      have hite : emitEdge ignore dev
          (LldpEntry.mk (some lp) (some rd) (some rp)) =
          if (dev, lp) ∈ ignore then none
          else some (RawEdge.mk dev lp rd rp) := by
        simp only [emitEdge]
        rw [if_neg (by push_neg; exact h1)]
      rw [hite]
      by_cases h2 : (dev, lp) ∈ ignore
      · rw [if_pos h2]
        simp only [Option.isSome_none, Bool.false_eq_true, false_iff]
        rintro ⟨lp', rd', rp', heq, _, _, _, hig⟩
        simp only [LldpEntry.mk.injEq, Option.some.injEq] at heq
        obtain ⟨rfl, rfl, rfl⟩ := heq
        exact hig h2
      · rw [if_neg h2]
        simp only [Option.isSome_some, true_iff]
        exact ⟨lp, rd, rp, rfl, h1.1, h1.2.1, h1.2.2, h2⟩

/-- C8 counterexample: an lldp entry whose `local_port` is present but the
empty string has all three fields present and is not in the (empty)
ignore-set, yet `normalize_edges` emits no raw edge for it — Python
truthiness also drops present-but-empty fields. -/
theorem claim8_counterexample :
    (LldpEntry.mk (some "") (some "Y") (some "Eth1")).local_port.isSome = true ∧
    (LldpEntry.mk (some "") (some "Y") (some "Eth1")).remote_dev.isSome = true ∧
    (LldpEntry.mk (some "") (some "Y") (some "Eth1")).remote_port.isSome = true ∧
    ("X", "") ∉ (∅ : Finset (String × String)) ∧
    emitEdge ∅ "X" (LldpEntry.mk (some "") (some "Y") (some "Eth1")) = none ∧
    (normalize_edges
        [("X", DeviceData.mk [] [LldpEntry.mk (some "") (some "Y") (some "Eth1")] [])]
        ∅).2.2.1 = ([] : List RawEdge) := by
  refine ⟨rfl, rfl, rfl, by decide, by decide, by decide⟩

/-- C8 (amended): `normalize_edges` is total (never raises) and emits a raw
edge for an lldp entry if and only if all three fields are present *and
non-empty* and the entry's `(device, local_port)` is not in the ignore-set;
an entry failing either condition contributes nothing to the output. -/
theorem claim8_normalize_emit_iff (td : Snapshot)
    (ignore : Finset (String × String)) :
    (∀ dev link, (emitEdge ignore dev link).isSome = true ↔
      ∃ lp rd rp, link = LldpEntry.mk (some lp) (some rd) (some rp) ∧
        lp ≠ "" ∧ rd ≠ "" ∧ rp ≠ "" ∧ (dev, lp) ∉ ignore) ∧
    (normalize_edges td ignore).2.2.1 =
      td.flatMap (fun dd => dd.2.lldp.filterMap (emitEdge ignore dd.1)) ∧
    (∀ dev dd link e, (dev, dd) ∈ td → link ∈ dd.lldp →
      emitEdge ignore dev link = some e →
      e ∈ (normalize_edges td ignore).2.2.1) := by
  refine ⟨emitEdge_isSome_iff ignore, rfl, ?_⟩
  intro dev dd link e hdd hlink hemit
  rw [normalize_raw_edges_eq]
  exact List.mem_flatMap.mpr
    ⟨(dev, dd), hdd, List.mem_filterMap.mpr ⟨link, hlink, hemit⟩⟩

theorem claim8_normalize_emit_iff_witness :
    (emitEdge (∅ : Finset (String × String)) "X"
      (LldpEntry.mk (some "Eth0") (some "Y") (some "Eth1"))).isSome = true ∧
    RawEdge.mk "X" "Eth0" "Y" "Eth1" ∈
      (normalize_edges
        [("X", DeviceData.mk [] [LldpEntry.mk (some "Eth0") (some "Y") (some "Eth1")] [])]
        ∅).2.2.1 := by
  constructor
  · exact ((claim8_normalize_emit_iff
      [("X", DeviceData.mk [] [LldpEntry.mk (some "Eth0") (some "Y") (some "Eth1")] [])]
      ∅).1 "X" _).mpr
      ⟨"Eth0", "Y", "Eth1", rfl, by decide, by decide, by decide, by decide⟩
  · exact (claim8_normalize_emit_iff
      [("X", DeviceData.mk [] [LldpEntry.mk (some "Eth0") (some "Y") (some "Eth1")] [])]
      ∅).2.2 "X"
      (DeviceData.mk [] [LldpEntry.mk (some "Eth0") (some "Y") (some "Eth1")] [])
      (LldpEntry.mk (some "Eth0") (some "Y") (some "Eth1"))
      (RawEdge.mk "X" "Eth0" "Y" "Eth1")
      (by decide) (by decide) (by decide)

/-- C9: the Devices set returned by `normalize_edges` is exactly the set of
top-level snapshot keys together with the remote device of every emitted
raw edge; in particular every emitted edge's remote device is a member. -/
theorem claim9_devices_spec (td : Snapshot)
    (ignore : Finset (String × String)) :
    (normalize_edges td ignore).1 =
      (td.map Prod.fst).toFinset ∪
        ((normalize_edges td ignore).2.2.1.map RawEdge.b_dev).toFinset ∧
    ∀ e ∈ (normalize_edges td ignore).2.2.1,
      e.b_dev ∈ (normalize_edges td ignore).1 := by
  have hdev : (normalize_edges td ignore).1 =
      (td.map Prod.fst).toFinset ∪
        ((normalize_edges td ignore).2.2.1.map RawEdge.b_dev).toFinset := by
    rw [show (normalize_edges td ignore).1 =
      (normalize_edges td ignore).2.2.1.foldl
        (fun acc e => insert e.b_dev acc) (td.map Prod.fst).toFinset from rfl]
    exact foldl_insert_bdev _ _
  refine ⟨hdev, ?_⟩
  intro e he
  rw [hdev]
  exact Finset.mem_union_right _
    (List.mem_toFinset.mpr (List.mem_map_of_mem RawEdge.b_dev he))

theorem claim9_devices_spec_witness :
    ("Y" : String) ∈
      (normalize_edges
        [("X", DeviceData.mk [] [LldpEntry.mk (some "Eth0") (some "Y") (some "Eth1")] [])]
        ∅).1 :=
  (claim9_devices_spec
    [("X", DeviceData.mk [] [LldpEntry.mk (some "Eth0") (some "Y") (some "Eth1")] [])]
    ∅).2 (RawEdge.mk "X" "Eth0" "Y" "Eth1") (by decide)

theorem pdpr_mem (raw : List RawEdge) :
    ∀ (acc : String × String → Finset String) (dp : String × String)
      (x : String),
      x ∈ (raw.foldl (fun acc e dp =>
          if dp = (e.a_dev, e.a_port) then insert e.b_dev (acc dp)
          else acc dp) acc) dp ↔
        x ∈ acc dp ∨ ∃ e ∈ raw, (e.a_dev, e.a_port) = dp ∧ e.b_dev = x := by
  induction raw with
  | nil => intro acc dp x; simp
  | cons e rest ih =>
    intro acc dp x
    rw [List.foldl_cons, ih]
    by_cases h : dp = (e.a_dev, e.a_port)
    · simp only [if_pos h, Finset.mem_insert]
      constructor
      · rintro ((rfl | hx) | ⟨e', he', hdp, hb⟩)
        · exact Or.inr ⟨e, List.mem_cons_self e rest, h.symm, rfl⟩
        · exact Or.inl hx
        · exact Or.inr ⟨e', List.mem_cons_of_mem e he', hdp, hb⟩
      · rintro (hx | ⟨e', he', hdp, hb⟩)
        · exact Or.inl (Or.inr hx)
        · rcases List.mem_cons.mp he' with rfl | he''
          · exact Or.inl (Or.inl hb.symm)
          · exact Or.inr ⟨e', he'', hdp, hb⟩
    · simp only [if_neg h]
      constructor
      · rintro (hx | ⟨e', he', hdp, hb⟩)
        · exact Or.inl hx
        · exact Or.inr ⟨e', List.mem_cons_of_mem e he', hdp, hb⟩
      · rintro (hx | ⟨e', he', hdp, hb⟩)
        · exact Or.inl hx
        · rcases List.mem_cons.mp he' with rfl | he''
          · exact absurd hdp.symm h
          · exact Or.inr ⟨e', he'', hdp, hb⟩

theorem per_dev_port_remotes_eq (raw : List RawEdge) (dp : String × String) :
    per_dev_port_remotes raw dp = remoteDevs raw dp := by
  ext x
  rw [per_dev_port_remotes, pdpr_mem]
  simp only [Finset.not_mem_empty, false_or, remoteDevs, List.mem_toFinset,
    List.mem_map, List.mem_filter, decide_eq_true_eq]
  constructor
  · rintro ⟨e, he, hdp, hb⟩
    exact ⟨e, ⟨he, hdp⟩, hb⟩
  · rintro ⟨e, ⟨he, hdp⟩, hb⟩
    exact ⟨e, he, hdp, hb⟩

theorem mem_detect_iff (raw : List RawEdge) (dp : String × String) :
    dp ∈ detect_anomalous_ports raw ↔ 1 < (remoteDevs raw dp).card := by
  rw [detect_anomalous_ports]
  simp only [Finset.mem_filter, List.mem_toFinset, List.mem_map,
    per_dev_port_remotes_eq]
  constructor
  · rintro ⟨_, h⟩; exact h
  · intro h
    refine ⟨?_, h⟩
    have hne : (remoteDevs raw dp).Nonempty := Finset.card_pos.mp (by omega)
    obtain ⟨x, hx⟩ := hne
    simp only [remoteDevs, List.mem_toFinset, List.mem_map, List.mem_filter,
      decide_eq_true_eq] at hx
    obtain ⟨e, ⟨he, hdp⟩, _⟩ := hx
    exact ⟨e, he, hdp⟩

/-- C4: `detect_anomalous_ports` returns exactly the set of
`(device, local_port)` pairs whose raw edges mention more than one distinct
remote device, and the result is invariant under permutation of the
input list. -/
theorem claim4_detect_anomalous (raw : List RawEdge) :
    (∀ dp : String × String,
      dp ∈ detect_anomalous_ports raw ↔ 1 < (remoteDevs raw dp).card) ∧
    ∀ raw' : List RawEdge, raw.Perm raw' →
      detect_anomalous_ports raw = detect_anomalous_ports raw' := by
  refine ⟨fun dp => mem_detect_iff raw dp, ?_⟩
  intro raw' hperm
  ext dp
  rw [mem_detect_iff, mem_detect_iff]
  have hrd : remoteDevs raw dp = remoteDevs raw' dp := by
    ext x
    simp only [remoteDevs, List.mem_toFinset, List.mem_map, List.mem_filter]
    constructor <;> rintro ⟨e, ⟨he, hd⟩, hb⟩
    · exact ⟨e, ⟨hperm.mem_iff.mp he, hd⟩, hb⟩
    · exact ⟨e, ⟨hperm.mem_iff.mpr he, hd⟩, hb⟩
  rw [hrd]

theorem claim4_detect_anomalous_witness :
    ("X", "Eth0") ∈ detect_anomalous_ports
      [RawEdge.mk "X" "Eth0" "Y" "p", RawEdge.mk "X" "Eth0" "Z" "p"] ∧
    detect_anomalous_ports
      [RawEdge.mk "X" "Eth0" "Y" "p", RawEdge.mk "X" "Eth0" "Z" "p"] =
    detect_anomalous_ports
      [RawEdge.mk "X" "Eth0" "Z" "p", RawEdge.mk "X" "Eth0" "Y" "p"] :=
  ⟨((claim4_detect_anomalous
      [RawEdge.mk "X" "Eth0" "Y" "p", RawEdge.mk "X" "Eth0" "Z" "p"]).1
      ("X", "Eth0")).mpr (by decide),
   (claim4_detect_anomalous
      [RawEdge.mk "X" "Eth0" "Y" "p", RawEdge.mk "X" "Eth0" "Z" "p"]).2
      [RawEdge.mk "X" "Eth0" "Z" "p", RawEdge.mk "X" "Eth0" "Y" "p"]
      (List.Perm.swap (RawEdge.mk "X" "Eth0" "Z" "p")
        (RawEdge.mk "X" "Eth0" "Y" "p") [])⟩

theorem seg_p2p_eq (raw : List RawEdge) (anom : Finset (String × String)) :
    (segmentize_edges raw anom).1 =
      raw.filter (fun e => decide ((e.a_dev, e.a_port) ∉ anom)) := by
  induction raw with
  | nil => simp [segmentize_edges]
  | cons e rest ih =>
    by_cases h : (e.a_dev, e.a_port) ∈ anom
    · simp [segmentize_edges, h, ih]
    · simp [segmentize_edges, h, ih]

theorem seg_se_eq (raw : List RawEdge) (anom : Finset (String × String)) :
    (segmentize_edges raw anom).2.1 =
      (raw.filter (fun e => decide ((e.a_dev, e.a_port) ∈ anom))).map
        (fun e => SegEdge.mk e.a_dev e.a_port (segName e.a_dev e.a_port)) := by
  induction raw with
  | nil => simp [segmentize_edges]
  | cons e rest ih =>
    by_cases h : (e.a_dev, e.a_port) ∈ anom
    · simp [segmentize_edges, h, ih]
    · simp [segmentize_edges, h, ih]

theorem seg_members_mem (raw : List RawEdge) (anom : Finset (String × String)) :
    ∀ e ∈ raw, (e.a_dev, e.a_port) ∈ anom →
      (e.b_dev, e.b_port) ∈
        (segmentize_edges raw anom).2.2.1 (segName e.a_dev e.a_port) := by
  induction raw with
  | nil => simp
  | cons f rest ih =>
    intro e he hanom
    rcases List.mem_cons.mp he with rfl | he'
    · simp [segmentize_edges, hanom]
    · have hmem := ih e he' hanom
      by_cases hf : (f.a_dev, f.a_port) ∈ anom
      · by_cases hx : segName e.a_dev e.a_port = segName f.a_dev f.a_port
        · simp only [segmentize_edges, if_pos hf, hx, if_pos rfl]
          exact Finset.mem_insert_of_mem (hx ▸ hmem)
        · simp only [segmentize_edges, if_pos hf, if_neg hx]
          exact hmem
      · simp only [segmentize_edges, if_neg hf]
        exact hmem

theorem seg_nodes_iff (raw : List RawEdge) (anom : Finset (String × String))
    (s : String) :
    s ∈ (segmentize_edges raw anom).2.2.2 ↔
      ∃ e ∈ raw, (e.a_dev, e.a_port) ∈ anom ∧
        segName e.a_dev e.a_port = s := by
  induction raw with
  | nil => simp [segmentize_edges]
  | cons f rest ih =>
    by_cases hf : (f.a_dev, f.a_port) ∈ anom
    · simp only [segmentize_edges, if_pos hf, Finset.mem_insert, ih]
      constructor
      · rintro (rfl | ⟨e, he, ha, hs⟩)
        · exact ⟨f, List.mem_cons_self f rest, hf, rfl⟩
        · exact ⟨e, List.mem_cons_of_mem f he, ha, hs⟩
      · rintro ⟨e, he, ha, hs⟩
        rcases List.mem_cons.mp he with rfl | he'
        · exact Or.inl hs.symm
        · exact Or.inr ⟨e, he', ha, hs⟩
    · simp only [segmentize_edges, if_neg hf, ih]
      constructor
      · rintro ⟨e, he, ha, hs⟩
        exact ⟨e, List.mem_cons_of_mem f he, ha, hs⟩
      · rintro ⟨e, he, ha, hs⟩
        rcases List.mem_cons.mp he with rfl | he'
        · exact absurd ha hf
        · exact ⟨e, he', ha, hs⟩

/-- C7: `segmentize_edges` routes each raw edge whose local port is
anomalous entirely into the segment outputs (segment edge plus segment
membership of its remote endpoint) and passes every other edge through
unchanged, so no edge with an anomalous local port appears among the
point-to-point candidates. -/
theorem claim7_segmentize_routing (raw : List RawEdge)
    (anom : Finset (String × String)) :
    (segmentize_edges raw anom).1 =
      raw.filter (fun e => decide ((e.a_dev, e.a_port) ∉ anom)) ∧
    (segmentize_edges raw anom).2.1 =
      (raw.filter (fun e => decide ((e.a_dev, e.a_port) ∈ anom))).map
        (fun e => SegEdge.mk e.a_dev e.a_port (segName e.a_dev e.a_port)) ∧
    (∀ e ∈ raw, (e.a_dev, e.a_port) ∈ anom →
      (e.b_dev, e.b_port) ∈
        (segmentize_edges raw anom).2.2.1 (segName e.a_dev e.a_port)) ∧
    (∀ e ∈ (segmentize_edges raw anom).1, (e.a_dev, e.a_port) ∉ anom) := by
  refine ⟨seg_p2p_eq raw anom, seg_se_eq raw anom, seg_members_mem raw anom, ?_⟩
  intro e he
  rw [seg_p2p_eq] at he
  exact of_decide_eq_true (List.mem_filter.mp he).2

theorem claim7_segmentize_routing_witness :
    ("Y", "p1") ∈
      (segmentize_edges
        [RawEdge.mk "X" "Eth0" "Y" "p1", RawEdge.mk "A" "e1" "B" "e2"]
        {("X", "Eth0")}).2.2.1 (segName "X" "Eth0") ∧
    RawEdge.mk "A" "e1" "B" "e2" ∈
      (segmentize_edges
        [RawEdge.mk "X" "Eth0" "Y" "p1", RawEdge.mk "A" "e1" "B" "e2"]
        {("X", "Eth0")}).1 ∧
    ("A", "e1") ∉ ({("X", "Eth0")} : Finset (String × String)) :=
  ⟨(claim7_segmentize_routing
      [RawEdge.mk "X" "Eth0" "Y" "p1", RawEdge.mk "A" "e1" "B" "e2"]
      {("X", "Eth0")}).2.2.1 (RawEdge.mk "X" "Eth0" "Y" "p1")
      (by decide) (by decide),
   by decide,
   (claim7_segmentize_routing
      [RawEdge.mk "X" "Eth0" "Y" "p1", RawEdge.mk "A" "e1" "B" "e2"]
      {("X", "Eth0")}).2.2.2 (RawEdge.mk "A" "e1" "B" "e2") (by decide)⟩

/-- C10: an anomalous port that is the local endpoint of `k ≥ 1` raw edges
contributes `k` identical `(device, port, "SEG:device:port")` triples to
`seg_edges` (duplicates are kept), while `seg_nodes` holds exactly one
segment name for it. -/
theorem claim10_segment_duplicates (raw : List RawEdge)
    (anom : Finset (String × String)) (d p : String) (k : ℕ)
    (h1 : (d, p) ∈ anom)
    (h2 : raw.countP (fun e => decide (e.a_dev = d ∧ e.a_port = p)) = k)
    (h3 : 1 ≤ k) :
    (segmentize_edges raw anom).2.1.countP
        (fun t => decide (t = SegEdge.mk d p (segName d p))) = k ∧
    segName d p ∈ (segmentize_edges raw anom).2.2.2 ∧
    ((segmentize_edges raw anom).2.2.2.filter
        (fun s => s = segName d p)).card = 1 := by
  have hcount : (segmentize_edges raw anom).2.1.countP
      (fun t => decide (t = SegEdge.mk d p (segName d p))) = k := by
    rw [seg_se_eq, List.countP_map, List.countP_filter, ← h2]
    apply List.countP_congr
    intro e _
    simp only [Function.comp_apply, Bool.and_eq_true, decide_eq_true_eq,
      SegEdge.mk.injEq]
    constructor
    · rintro ⟨⟨hd, hp, _⟩, _⟩
      exact ⟨hd, hp⟩
    · rintro ⟨hd, hp⟩
      exact ⟨⟨hd, hp, by rw [hd, hp]⟩, by rw [hd, hp]; exact h1⟩
  have hmem : segName d p ∈ (segmentize_edges raw anom).2.2.2 := by
    have hpos : 0 < raw.countP (fun e => decide (e.a_dev = d ∧ e.a_port = p)) := by
      omega
    rw [List.countP_pos_iff] at hpos
    obtain ⟨e, he, hde⟩ := hpos
    simp only [decide_eq_true_eq] at hde
    rw [seg_nodes_iff]
    refine ⟨e, he, ?_, by rw [hde.1, hde.2]⟩
    rw [hde.1, hde.2]
    exact h1
  refine ⟨hcount, hmem, ?_⟩
  rw [Finset.filter_eq' _ (segName d p), if_pos hmem, Finset.card_singleton]

theorem claim10_segment_duplicates_witness :
    (segmentize_edges
        [RawEdge.mk "X" "Eth0" "Y" "p1", RawEdge.mk "X" "Eth0" "Z" "p2"]
        {("X", "Eth0")}).2.1.countP
        (fun t => decide (t = SegEdge.mk "X" "Eth0" (segName "X" "Eth0"))) = 2 ∧
    segName "X" "Eth0" ∈
      (segmentize_edges
        [RawEdge.mk "X" "Eth0" "Y" "p1", RawEdge.mk "X" "Eth0" "Z" "p2"]
        {("X", "Eth0")}).2.2.2 :=
  have h := claim10_segment_duplicates
    [RawEdge.mk "X" "Eth0" "Y" "p1", RawEdge.mk "X" "Eth0" "Z" "p2"]
    {("X", "Eth0")} "X" "Eth0" 2 (by decide) (by decide) (by decide)
  ⟨h.1, h.2.1⟩

theorem pairLt_asymm {x y : String × String} (h : pairLt x y) :
    ¬ pairLt y x := by
  rintro (h' | ⟨he', h'⟩) <;> rcases h with h | ⟨he, h⟩
  · exact lt_asymm h h'
  · rw [he] at h'; exact lt_irrefl _ h'
  · rw [he'] at h; exact lt_irrefl _ h
  · exact lt_asymm h h'

theorem pairLt_connex {x y : String × String} (h : ¬ pairLt x y)
    (h' : ¬ pairLt y x) : x = y := by
  rcases lt_trichotomy x.1 y.1 with h1 | h1 | h1
  · exact absurd (Or.inl h1) h
  · rcases lt_trichotomy x.2 y.2 with h2 | h2 | h2
    · exact absurd (Or.inr ⟨h1, h2⟩) h
    · exact Prod.ext h1 h2
    · exact absurd (Or.inr ⟨h1.symm, h2⟩) h'
  · exact absurd (Or.inl h1) h'

theorem canonEdge_eq_self_of_not_lt {e : RawEdge}
    (h : ¬ pairLt (e.b_dev, e.b_port) (e.a_dev, e.a_port)) :
    canonEdge e = e := by
  rw [canonEdge, if_neg h]

theorem canonEdge_not_lt (e : RawEdge) :
    ¬ pairLt ((canonEdge e).b_dev, (canonEdge e).b_port)
      ((canonEdge e).a_dev, (canonEdge e).a_port) := by
  rw [canonEdge]
  split_ifs with h
  · exact pairLt_asymm h
  · exact h

theorem canonEdge_idem (e : RawEdge) : canonEdge (canonEdge e) = canonEdge e :=
  canonEdge_eq_self_of_not_lt (canonEdge_not_lt e)

theorem canonEdge_mirror (e : RawEdge) :
    canonEdge (mirrorEdge e) = canonEdge e := by
  obtain ⟨ad, ap, bd, bp⟩ := e
  rw [mirrorEdge, canonEdge, canonEdge]
  split_ifs with h1 h2 h2
  · exact absurd h2 (pairLt_asymm h1)
  · rfl
  · rfl
  · have hpair : ((ad, ap) : String × String) = (bd, bp) := pairLt_connex h1 h2
    obtain ⟨h3, h4⟩ := Prod.mk.injEq .. ▸ hpair
    rw [h3, h4]

theorem canonEdge_choice (e : RawEdge) :
    canonEdge e = e ∨ canonEdge e = mirrorEdge e := by
  rw [canonEdge, mirrorEdge]
  split_ifs with h
  · exact Or.inr rfl
  · exact Or.inl rfl

theorem mem_dedupGo {l : List RawEdge} {seen : Finset RawEdge} {x : RawEdge}
    (hx : x ∈ dedupGo seen l) :
    x ∉ seen ∧ canonEdge x = x ∧ ∃ e ∈ l, canonEdge e = x := by
  induction l generalizing seen with
  | nil => simp [dedupGo] at hx
  | cons e rest ih =>
    rw [dedupGo] at hx
    by_cases h : canonEdge e ∈ seen
    · rw [if_pos h] at hx
      obtain ⟨h1, h2, e', he', hc⟩ := ih hx
      exact ⟨h1, h2, e', List.mem_cons_of_mem e he', hc⟩
    · rw [if_neg h] at hx
      rcases List.mem_cons.mp hx with rfl | hx'
      · exact ⟨h, canonEdge_idem e, e, List.mem_cons_self e rest, rfl⟩
      · obtain ⟨h1, h2, e', he', hc⟩ := ih hx'
        exact ⟨fun hs => h1 (Finset.mem_insert_of_mem hs), h2, e',
          List.mem_cons_of_mem e he', hc⟩

theorem nodup_dedupGo (l : List RawEdge) :
    ∀ seen : Finset RawEdge, (dedupGo seen l).Nodup := by
  induction l with
  | nil => intro seen; simp [dedupGo]
  | cons e rest ih =>
    intro seen
    rw [dedupGo]
    by_cases h : canonEdge e ∈ seen
    · rw [if_pos h]; exact ih seen
    · rw [if_neg h]
      refine List.nodup_cons.mpr ⟨?_, ih _⟩
      intro hmem
      exact (mem_dedupGo hmem).1 (Finset.mem_insert_self _ _)

theorem canon_mem_dedupGo (l : List RawEdge) :
    ∀ e ∈ l, ∀ seen : Finset RawEdge,
      canonEdge e ∈ seen ∨ canonEdge e ∈ dedupGo seen l := by
  induction l with
  | nil => simp
  | cons f rest ih =>
    intro e he seen
    rw [dedupGo]
    by_cases h : canonEdge f ∈ seen
    · rw [if_pos h]
      rcases List.mem_cons.mp he with rfl | he'
      · exact Or.inl h
      · exact ih e he' seen
    · rw [if_neg h]
      rcases List.mem_cons.mp he with rfl | he'
      · exact Or.inr (List.mem_cons_self _ _)
      · rcases ih e he' (insert (canonEdge f) seen) with hin | hin
        · rcases Finset.mem_insert.mp hin with heq | hin'
          · exact Or.inr (heq ▸ List.mem_cons_self _ _)
          · exact Or.inl hin'
        · exact Or.inr (List.mem_cons_of_mem _ hin)

theorem length_dedupGo (l : List RawEdge) :
    ∀ seen : Finset RawEdge, (dedupGo seen l).length ≤ l.length := by
  induction l with
  | nil => intro seen; simp [dedupGo]
  | cons e rest ih =>
    intro seen
    rw [dedupGo]
    by_cases h : canonEdge e ∈ seen
    · rw [if_pos h]
      exact le_trans (ih seen) (Nat.le_succ _)
    · rw [if_neg h]
      simpa using Nat.succ_le_succ (ih (insert (canonEdge e) seen))

theorem canonical_eq_of_sameEnds {z w : RawEdge} (hz : canonEdge z = z)
    (hw : canonEdge w = w) (hs : sameEnds z w) : z = w := by
  rcases hs with rfl | rfl
  · rfl
  · exact hz.symm.trans ((canonEdge_mirror w).trans hw)

/-- C5: `dedup_bidirectional_edges` canonicalizes each edge's endpoints by
the lexicographic order on `(device, port)` and keeps the first occurrence
per unordered key: its output has no two edges over the same endpoint pair,
is no longer than the input, and a mirrored pair of raw edges yields
exactly one canonical edge between those endpoints. -/
theorem claim5_dedup_canonical (l : List RawEdge) :
    (dedup_bidirectional_edges l).length ≤ l.length ∧
    (∀ z ∈ dedup_bidirectional_edges l,
      canonEdge z = z ∧ ∃ e ∈ l, canonEdge e = z) ∧
    List.Pairwise (fun z w => ¬ sameEnds z w) (dedup_bidirectional_edges l) ∧
    ∀ e, e ∈ l → mirrorEdge e ∈ l →
      (dedup_bidirectional_edges l).countP
        (fun z => decide (sameEnds z e)) = 1 := by
  refine ⟨length_dedupGo l ∅, ?_, ?_, ?_⟩
  · intro z hz
    exact ⟨(mem_dedupGo hz).2.1, (mem_dedupGo hz).2.2⟩
  · refine List.Pairwise.imp_of_mem ?_
      (show List.Pairwise (fun a b => a ≠ b) (dedup_bidirectional_edges l)
        from nodup_dedupGo l ∅)
    intro a b ha hb hne hsame
    exact hne (canonical_eq_of_sameEnds (mem_dedupGo ha).2.1
      (mem_dedupGo hb).2.1 hsame)
  · intro e he _
    have hpt : ∀ z ∈ dedup_bidirectional_edges l,
        decide (sameEnds z e) = (z == canonEdge e) := by
      intro z hz
      have hzc : canonEdge z = z := (mem_dedupGo hz).2.1
      by_cases hs : sameEnds z e
      · have hzeq : z = canonEdge e := by
          rcases hs with rfl | rfl
          · exact hzc.symm
          · exact hzc.symm.trans (canonEdge_mirror e)
        subst hzeq
        simp [hs]
      · have hzne : z ≠ canonEdge e := by
          intro hzeq
          rcases canonEdge_choice e with hc | hc
          · exact hs (Or.inl (hzeq.trans hc))
          · exact hs (Or.inr (hzeq.trans hc))
        simp [hs, hzne]
    rw [List.countP_congr (fun z hz => by rw [hpt z hz])]
    have hmem : canonEdge e ∈ dedup_bidirectional_edges l := by
      rcases canon_mem_dedupGo l e he ∅ with hin | hin
      · simp at hin
      · exact hin
    exact List.count_eq_one_of_mem (nodup_dedupGo l ∅) hmem

theorem claim5_dedup_canonical_witness :
    (dedup_bidirectional_edges
      [RawEdge.mk "X" "Eth0" "Y" "Eth1",
       RawEdge.mk "Y" "Eth1" "X" "Eth0"]).countP
      (fun z => decide (sameEnds z (RawEdge.mk "X" "Eth0" "Y" "Eth1"))) = 1 :=
  (claim5_dedup_canonical
    [RawEdge.mk "X" "Eth0" "Y" "Eth1",
     RawEdge.mk "Y" "Eth1" "X" "Eth0"]).2.2.2
    (RawEdge.mk "X" "Eth0" "Y" "Eth1") (by decide) (by decide)

theorem dedupGo_fixed {l : List RawEdge}
    (hcanon : ∀ x ∈ l, canonEdge x = x) (hnd : l.Nodup) :
    ∀ seen : Finset RawEdge, (∀ x ∈ l, x ∉ seen) → dedupGo seen l = l := by
  induction l with
  | nil => intro seen _; simp [dedupGo]
  | cons e rest ih =>
    intro seen hdisj
    rw [dedupGo]
    have hce : canonEdge e = e := hcanon e (List.mem_cons_self e rest)
    rw [hce, if_neg (hdisj e (List.mem_cons_self e rest))]
    obtain ⟨hhead, htail⟩ := List.nodup_cons.mp hnd
    congr 1
    refine ih (fun x hx => hcanon x (List.mem_cons_of_mem e hx)) htail _ ?_
    intro x hx
    rw [Finset.mem_insert]
    rintro (rfl | hxs)
    · exact hhead hx
    · exact hdisj x (List.mem_cons_of_mem e hx) hxs

/-- C6: `dedup_bidirectional_edges` is idempotent — applying it to its own
output returns that output unchanged. -/
theorem claim6_dedup_idempotent (l : List RawEdge) :
    dedup_bidirectional_edges (dedup_bidirectional_edges l) =
      dedup_bidirectional_edges l := by
  refine dedupGo_fixed ?_ (nodup_dedupGo l ∅) ∅ ?_
  · intro x hx
    exact (mem_dedupGo hx).2.1
  · intro x _
    exact Finset.not_mem_empty x

theorem PMem_addPort_iff (acc : List (String × List String))
    (d' p' d p : String) :
    PMem (addPort acc d' p') d p ↔ PMem acc d p ∨ (d = d' ∧ p = p') := by
  induction acc with
  | nil =>
    constructor
    · rintro ⟨ps, hmem, hp⟩
      simp only [addPort, List.mem_singleton] at hmem
      have h1 : d = d' := congrArg Prod.fst hmem
      have h2 : ps = [p'] := congrArg Prod.snd hmem
      subst h2
      simp only [List.mem_singleton] at hp
      exact Or.inr ⟨h1, hp⟩
    · rintro (⟨ps, hmem, _⟩ | ⟨rfl, rfl⟩)
      · simp [PMem] at hmem
      · exact ⟨[p], by simp [addPort], by simp⟩
  | cons hd rest ih =>
    obtain ⟨d0, ps0⟩ := hd
    by_cases hde : d0 = d'
    · subst hde
      have haddp : addPort ((d0, ps0) :: rest) d0 p' =
          (d0, if p' ∈ ps0 then ps0 else ps0 ++ [p']) :: rest := by
        simp [addPort]
      rw [haddp]
      have hps1 : ∀ q : String,
          (q ∈ (if p' ∈ ps0 then ps0 else ps0 ++ [p'])) ↔
            q ∈ ps0 ∨ q = p' := by
        intro q
        split_ifs with hmem0
        · constructor
          · exact Or.inl
          · rintro (h | rfl)
            exacts [h, hmem0]
        · simp
      constructor
      · rintro ⟨ps, hmem, hp⟩
        rcases List.mem_cons.mp hmem with heq | hmem'
        · have h1 : d = d0 := congrArg Prod.fst heq
          have h2 : ps = _ := congrArg Prod.snd heq
          subst h2
          rcases (hps1 p).mp hp with hp0 | rfl
          · refine Or.inl ⟨ps0, ?_, hp0⟩
            rw [h1]
            exact List.mem_cons_self _ _
          · exact Or.inr ⟨h1, rfl⟩
        · exact Or.inl ⟨ps, List.mem_cons_of_mem _ hmem', hp⟩
      · rintro (⟨ps, hmem, hp⟩ | ⟨rfl, rfl⟩)
        · rcases List.mem_cons.mp hmem with heq | hmem'
          · have h1 : d = d0 := congrArg Prod.fst heq
            have h2 : ps = ps0 := congrArg Prod.snd heq
            subst h2
            refine ⟨_, ?_, (hps1 p).mpr (Or.inl hp)⟩
            rw [h1]
            exact List.mem_cons_self _ _
          · exact ⟨ps, List.mem_cons_of_mem _ hmem', hp⟩
        · exact ⟨_, List.mem_cons_self _ _, (hps1 _).mpr (Or.inr rfl)⟩
    · have haddp : addPort ((d0, ps0) :: rest) d' p' =
          (d0, ps0) :: addPort rest d' p' := by
        simp [addPort, hde]
      rw [haddp]
      constructor
      · rintro ⟨ps, hmem, hp⟩
        rcases List.mem_cons.mp hmem with heq | hmem'
        · exact Or.inl ⟨ps, List.mem_cons.mpr (Or.inl heq), hp⟩
        · rcases ih.mp ⟨ps, hmem', hp⟩ with hrest | hdp
          · obtain ⟨ps2, hmem2, hp2⟩ := hrest
            exact Or.inl ⟨ps2, List.mem_cons_of_mem _ hmem2, hp2⟩
          · exact Or.inr hdp
      · rintro (⟨ps, hmem, hp⟩ | hdp)
        · rcases List.mem_cons.mp hmem with heq | hmem'
          · exact ⟨ps, List.mem_cons.mpr (Or.inl heq), hp⟩
          · obtain ⟨ps2, hmem2, hp2⟩ := ih.mpr (Or.inl ⟨ps, hmem', hp⟩)
            exact ⟨ps2, List.mem_cons_of_mem _ hmem2, hp2⟩
        · obtain ⟨ps2, hmem2, hp2⟩ := ih.mpr (Or.inr hdp)
          exact ⟨ps2, List.mem_cons_of_mem _ hmem2, hp2⟩

theorem PMem_foldl_p2p (l : List RawEdge) :
    ∀ (acc : List (String × List String)) (d p : String),
      PMem (l.foldl (fun acc e =>
          addPort (addPort acc e.a_dev e.a_port) e.b_dev e.b_port) acc) d p ↔
        PMem acc d p ∨ ∃ e ∈ l,
          (d = e.a_dev ∧ p = e.a_port) ∨ (d = e.b_dev ∧ p = e.b_port) := by
  induction l with
  | nil => simp
  | cons e rest ih =>
    intro acc d p
    rw [List.foldl_cons, ih, PMem_addPort_iff, PMem_addPort_iff]
    constructor
    · rintro (((hacc | h1) | h2) | ⟨x, hx, hcase⟩)
      · exact Or.inl hacc
      · exact Or.inr ⟨e, List.mem_cons_self e rest, Or.inl h1⟩
      · exact Or.inr ⟨e, List.mem_cons_self e rest, Or.inr h2⟩
      · exact Or.inr ⟨x, List.mem_cons_of_mem e hx, hcase⟩
    · rintro (hacc | ⟨x, hx, hcase⟩)
      · exact Or.inl (Or.inl (Or.inl hacc))
      · rcases List.mem_cons.mp hx with rfl | hx'
        · rcases hcase with h1 | h2
          · exact Or.inl (Or.inl (Or.inr h1))
          · exact Or.inl (Or.inr h2)
        · exact Or.inr ⟨x, hx', hcase⟩

theorem PMem_foldl_seg (l : List SegEdge) :
    ∀ (acc : List (String × List String)) (d p : String),
      PMem (l.foldl (fun acc s => addPort acc s.dev s.port) acc) d p ↔
        PMem acc d p ∨ ∃ s ∈ l, d = s.dev ∧ p = s.port := by
  induction l with
  | nil => simp
  | cons s rest ih =>
    intro acc d p
    rw [List.foldl_cons, ih, PMem_addPort_iff]
    constructor
    · rintro ((hacc | h1) | ⟨x, hx, hcase⟩)
      · exact Or.inl hacc
      · exact Or.inr ⟨s, List.mem_cons_self s rest, h1⟩
      · exact Or.inr ⟨x, List.mem_cons_of_mem s hx, hcase⟩
    · rintro (hacc | ⟨x, hx, hcase⟩)
      · exact Or.inl (Or.inl hacc)
      · rcases List.mem_cons.mp hx with rfl | hx'
        · exact Or.inl (Or.inr hcase)
        · exact Or.inr ⟨x, hx', hcase⟩

theorem PMem_model_pbd (p2p : List RawEdge) (seg : List SegEdge)
    (d p : String) :
    PMem (model_ports_by_device p2p seg) d p ↔
      (∃ e ∈ p2p,
        (d = e.a_dev ∧ p = e.a_port) ∨ (d = e.b_dev ∧ p = e.b_port)) ∨
      (∃ s ∈ seg, d = s.dev ∧ p = s.port) := by
  have hnil : PMem [] d p ↔ False := by
    simp [PMem]
  rw [model_ports_by_device, PMem_foldl_seg, PMem_foldl_p2p, hnil, false_or]

theorem mem_dkeys_build_port_meta
    (ifs : List (String × List (String × IfaceRec)))
    (pbd : List (String × List String)) (K : String) :
    K ∈ dkeys (build_port_meta ifs pbd) ↔
      ∃ d p, PMem pbd d p ∧ portKey d p = K := by
  rw [build_port_meta, mem_dkeys_dictOf]
  simp only [List.mem_flatMap, List.mem_map]
  constructor
  · rintro ⟨kv, ⟨dp, hdp, q, hq, rfl⟩, hk⟩
    refine ⟨dp.1, q, ⟨dp.2, ?_, hq⟩, hk⟩
    exact hdp
  · rintro ⟨d, p, ⟨ps, hps, hp⟩, rfl⟩
    exact ⟨(portKey d p, mkPortMeta ifs d p), ⟨(d, ps), hps, p, hp, rfl⟩, rfl⟩

theorem mem_refPorts (m : TopologyModel) (dp : String × String) :
    dp ∈ refPorts m ↔
      (∃ e ∈ m.p2p_edges,
        dp = (e.a_dev, e.a_port) ∨ dp = (e.b_dev, e.b_port)) ∨
      (∃ s ∈ m.seg_edges, dp = (s.dev, s.port)) := by
  rw [refPorts, List.mem_toFinset, List.mem_append]
  simp only [List.mem_flatMap, List.mem_map, List.mem_cons,
    List.mem_singleton, List.not_mem_nil, or_false]
  constructor
  · rintro (⟨e, he, h⟩ | ⟨s, hs, h⟩)
    · exact Or.inl ⟨e, he, h⟩
    · exact Or.inr ⟨s, hs, h.symm⟩
  · rintro (⟨e, he, h⟩ | ⟨s, hs, h⟩)
    · exact Or.inl ⟨e, he, h⟩
    · exact Or.inr ⟨s, hs, h.symm⟩

theorem PMem_pbd_iff_refPorts (m : TopologyModel) (d p : String) :
    PMem (model_ports_by_device m.p2p_edges m.seg_edges) d p ↔
      (d, p) ∈ refPorts m := by
  rw [PMem_model_pbd, mem_refPorts]
  simp only [Prod.mk.injEq]

theorem build_model_port_meta_eq (td : Snapshot)
    (ignore : Finset (String × String)) :
    (build_model td ignore).port_meta =
      build_port_meta (build_model td ignore).interfaces
        (model_ports_by_device (build_model td ignore).p2p_edges
          (build_model td ignore).seg_edges) := rfl

/-- C1: after assembly, no P2PEdge or SegmentEdge of the built model ever
references a port missing from the built PortMeta — the dangling-reference
condition that the spec's `ValidationError` guards against is unreachable,
so `build_model` (a total function) always returns the model normally. -/
theorem claim1_no_dangling_reference (td : Snapshot)
    (ignore : Finset (String × String)) :
    ∀ dp ∈ refPorts (build_model td ignore),
      portKey dp.1 dp.2 ∈ dkeys (build_model td ignore).port_meta := by
  rintro ⟨d, p⟩ hdp
  rw [build_model_port_meta_eq, mem_dkeys_build_port_meta]
  exact ⟨d, p, (PMem_pbd_iff_refPorts (build_model td ignore) d p).mpr hdp, rfl⟩

theorem claim1_no_dangling_reference_witness :
    portKey "X" "Eth0" ∈ dkeys
      (build_model
        [("X", DeviceData.mk [] [LldpEntry.mk (some "Eth0") (some "Y") (some "Eth1")] [])]
        ∅).port_meta :=
  claim1_no_dangling_reference
    [("X", DeviceData.mk [] [LldpEntry.mk (some "Eth0") (some "Y") (some "Eth1")] [])]
    ∅ ("X", "Eth0") (by decide)

/-- C3 counterexample: with device names containing `:` the claim's third
part fails.  Device "A" has interface port "B:C" which is in no edge, and
device "A:B" has an LLDP link on port "C"; the interface-only port's
`"device:port"` string "A:B:C" *does* have a PortMeta entry, created for
the referenced port ("A:B", "C"). -/
theorem claim3_counterexample :
    (build_model
        [("A", DeviceData.mk
            [("B:C", IfaceRec.mk none none none none none none none)] [] []),
         ("A:B", DeviceData.mk []
            [LldpEntry.mk (some "C") (some "D") (some "p")] [])]
        ∅).interfaces.lookup "A" =
      some [("B:C", IfaceRec.mk none none none none none none none)] ∧
    ("A", "B:C") ∉ refPorts (build_model
        [("A", DeviceData.mk
            [("B:C", IfaceRec.mk none none none none none none none)] [] []),
         ("A:B", DeviceData.mk []
            [LldpEntry.mk (some "C") (some "D") (some "p")] [])]
        ∅) ∧
    portKey "A" "B:C" ∈ dkeys (build_model
        [("A", DeviceData.mk
            [("B:C", IfaceRec.mk none none none none none none none)] [] []),
         ("A:B", DeviceData.mk []
            [LldpEntry.mk (some "C") (some "D") (some "p")] [])]
        ∅).port_meta := by
  refine ⟨by decide, by decide, by decide⟩

/-- C3 (amended): the key set of the model's PortMeta equals exactly the
set of `"device:port"` strings of ports referenced by final P2P or segment
edges, each such port having exactly one entry (the key list is
duplicate-free); a port present in interface data but in no edge
contributes no entry, and its own `"device:port"` string is absent provided
it does not collide with a referenced port's string (as can happen when a
device name contains `:`). -/
theorem claim3_port_meta_keys (td : Snapshot)
    (ignore : Finset (String × String)) :
    (dkeys (build_model td ignore).port_meta).toFinset =
      (refPorts (build_model td ignore)).image
        (fun dp => portKey dp.1 dp.2) ∧
    (dkeys (build_model td ignore).port_meta).Nodup ∧
    ∀ d p : String,
      (∃ ifs, (build_model td ignore).interfaces.lookup d = some ifs ∧
        p ∈ ifs.map Prod.fst) →
      (d, p) ∉ refPorts (build_model td ignore) →
      (∀ dp ∈ refPorts (build_model td ignore),
        portKey dp.1 dp.2 ≠ portKey d p) →
      portKey d p ∉ dkeys (build_model td ignore).port_meta := by
  have hkeys : ∀ K : String,
      K ∈ dkeys (build_model td ignore).port_meta ↔
        ∃ dp ∈ refPorts (build_model td ignore), portKey dp.1 dp.2 = K := by
    intro K
    rw [build_model_port_meta_eq, mem_dkeys_build_port_meta]
    constructor
    · rintro ⟨d, p, hpm, hk⟩
      exact ⟨(d, p),
        (PMem_pbd_iff_refPorts (build_model td ignore) d p).mp hpm, hk⟩
    · rintro ⟨⟨d, p⟩, hdp, hk⟩
      exact ⟨d, p,
        (PMem_pbd_iff_refPorts (build_model td ignore) d p).mpr hdp, hk⟩
  refine ⟨?_, ?_, ?_⟩
  · ext K
    rw [List.mem_toFinset, hkeys, Finset.mem_image]
  · rw [build_model_port_meta_eq, build_port_meta]
    exact nodup_dkeys_dictOf _
  · intro d p _ _ hnocoll hmem
    obtain ⟨dp, hdp, hk⟩ := (hkeys (portKey d p)).mp hmem
    exact hnocoll dp hdp hk

theorem claim3_port_meta_keys_witness :
    portKey "A" "Eth9" ∉ dkeys
      (build_model
        [("A", DeviceData.mk
            [("Eth9", IfaceRec.mk none none none none none none none)]
            [LldpEntry.mk (some "Eth0") (some "B") (some "Eth1")] [])]
        ∅).port_meta :=
  (claim3_port_meta_keys
    [("A", DeviceData.mk
        [("Eth9", IfaceRec.mk none none none none none none none)]
        [LldpEntry.mk (some "Eth0") (some "B") (some "Eth1")] [])]
    ∅).2.2 "A" "Eth9"
    ⟨[("Eth9", IfaceRec.mk none none none none none none none)],
      by decide, by decide⟩
    (by decide) (by decide)

theorem PMem_addPort_mono {acc : List (String × List String)} {d p : String}
    (h : PMem acc d p) (d' p' : String) : PMem (addPort acc d' p') d p :=
  (PMem_addPort_iff acc d' p' d p).mpr (Or.inl h)

theorem PMem_inner_iface (dev : String) (ifs : List (String × IfaceRec))
    {port : String} {r : IfaceRec} (hp : (port, r) ∈ ifs) :
    ∀ acc, PMem (ifs.foldl (fun a pr => addPort a dev pr.1) acc) dev port := by
  induction ifs with
  | nil => simp at hp
  | cons pr rest ih =>
    intro acc
    rw [List.foldl_cons]
    rcases List.mem_cons.mp hp with heq | hmem
    · have h1 : pr.1 = port := congrArg Prod.fst heq.symm
      have h0 : PMem (addPort acc dev pr.1) dev port := by
        rw [h1]
        exact (PMem_addPort_iff acc dev port dev port).mpr (Or.inr ⟨rfl, rfl⟩)
      exact @foldl_preserve _ _ (fun a => PMem a dev port) _
        (fun a pr2 ha => PMem_addPort_mono ha dev pr2.1) rest _ h0
    · exact ih hmem _

theorem PMem_acc0 (il : List (String × List (String × IfaceRec)))
    {dev : String} {ifs : List (String × IfaceRec)} {port : String}
    {r : IfaceRec} (hi : (dev, ifs) ∈ il) (hp : (port, r) ∈ ifs) :
    ∀ acc, PMem (il.foldl
      (fun acc di => di.2.foldl (fun a pr => addPort a di.1 pr.1) acc) acc)
      dev port := by
  induction il with
  | nil => simp at hi
  | cons di rest ih =>
    intro acc
    rw [List.foldl_cons]
    rcases List.mem_cons.mp hi with heq | hmem
    · have h1 : di.1 = dev := congrArg Prod.fst heq.symm
      have h2 : di.2 = ifs := congrArg Prod.snd heq.symm
      have h0 : PMem (di.2.foldl (fun a pr => addPort a di.1 pr.1) acc)
          dev port := by
        rw [h1, h2]
        exact PMem_inner_iface dev ifs hp acc
      exact @foldl_preserve _ _ (fun a => PMem a dev port) _
        (fun a di2 ha => @foldl_preserve _ _ (fun a2 => PMem a2 dev port) _
          (fun a2 pr2 ha2 => PMem_addPort_mono ha2 di2.1 pr2.1) di2.2 a ha)
        rest _ h0
    · exact ih hmem _

theorem PMem_payloadPorts_of_iface (m : TopologyModel) {dev : String}
    {ifs : List (String × IfaceRec)} {port : String} {r : IfaceRec}
    (hi : (dev, ifs) ∈ m.interfaces) (hp : (port, r) ∈ ifs) :
    PMem (payloadPorts m) dev port := by
  simp only [payloadPorts]
  refine @foldl_preserve _ _ (fun a => PMem a dev port) _
    (fun a s ha => PMem_addPort_mono ha s.dev s.port) m.seg_edges _ ?_
  refine @foldl_preserve _ _ (fun a => PMem a dev port) _
    (fun a e ha =>
      PMem_addPort_mono (PMem_addPort_mono ha e.a_dev e.a_port)
        e.b_dev e.b_port)
    m.p2p_edges _ ?_
  exact PMem_acc0 m.interfaces hi hp []

theorem vlanWrites_mem (m : TopologyModel) {dev : String} {ps : List String}
    {port vlanId : String} {vt : List (String × List String)}
    {vports : List String}
    (hpp : (dev, ps) ∈ payloadPorts m)
    (hvm : m.vlan_membership.lookup dev = some vt)
    (hvt : (vlanId, vports) ∈ vt) (hport : port ∈ vports) :
    (portKey dev port, vlanId) ∈ vlanWrites m := by
  rw [vlanWrites]
  apply List.mem_flatMap.mpr
  refine ⟨(dev, ps), hpp, ?_⟩
  simp only [hvm]
  exact List.mem_flatMap.mpr
    ⟨(vlanId, vports), hvt, List.mem_map_of_mem _ hport⟩

theorem payloadMetaWrites_mem (m : TopologyModel) {dev : String}
    {ps : List String} {port : String}
    (hpp : (dev, ps) ∈ payloadPorts m) (hp : port ∈ ps) :
    (portKey dev port, mkPayloadMeta m dev port) ∈ payloadMetaWrites m :=
  List.mem_flatMap.mpr ⟨(dev, ps), hpp, List.mem_map_of_mem _ hp⟩

theorem mkPayloadMeta_vlan (m : TopologyModel) (dev port : String) :
    (mkPayloadMeta m dev port).vlan =
      (port_to_vlan m).lookup (portKey dev port) := by
  simp only [mkPayloadMeta]
  split <;> rfl

/-- C2 counterexample: the preference fails under a `"device:port"` key
collision.  VlanMembership maps device "A:B" port "C" to "10" and that
port's interface record provides no vlan, but device "A" port "B:C"
produces the same key "A:B:C" mapped to "99", and `port_to_vlan`'s
last-write-wins makes the final payload entry carry "99", not "10". -/
theorem claim2_counterexample :
    (build_model
        [("A:B", DeviceData.mk
            [("C", IfaceRec.mk none none none none none none none)]
            [] [("10", ["C"])]),
         ("A", DeviceData.mk
            [("B:C", IfaceRec.mk none none none none none none none)]
            [] [("99", ["B:C"])])]
        ∅).vlan_membership.lookup "A:B" = some [("10", ["C"])] ∧
    (build_model
        [("A:B", DeviceData.mk
            [("C", IfaceRec.mk none none none none none none none)]
            [] [("10", ["C"])]),
         ("A", DeviceData.mk
            [("B:C", IfaceRec.mk none none none none none none none)]
            [] [("99", ["B:C"])])]
        ∅).interfaces.lookup "A:B" =
      some [("C", IfaceRec.mk none none none none none none none)] ∧
    (payload_port_meta (build_model
        [("A:B", DeviceData.mk
            [("C", IfaceRec.mk none none none none none none none)]
            [] [("10", ["C"])]),
         ("A", DeviceData.mk
            [("B:C", IfaceRec.mk none none none none none none none)]
            [] [("99", ["B:C"])])]
        ∅)).lookup (portKey "A:B" "C") =
      some (PortMeta.mk "???" "?" "N/A" "N/A" "N/A" "N/A" (some "99")) := by
  refine ⟨by decide, by decide, by decide⟩

/-- C2 (amended): for a snapshot whose VlanMembership maps a device's port
to a vlan id while the port's interface record provides no vlan, and whose
`"device:port"` strings do not collide, the exported payload's final
PortMeta entry for that port carries that vlan id — both branches of
`_make_payload` take the final VLAN from the VlanMembership-derived
`port_to_vlan`, overriding the interface-status-derived vlan. -/
theorem claim2_vlan_preference (td : Snapshot)
    (ignore : Finset (String × String)) (dev port vlanId : String)
    (ifs : List (String × IfaceRec)) (r : IfaceRec)
    (vt : List (String × List String)) (vports : List String)
    (hdev : (dev, ifs) ∈ (build_model td ignore).interfaces)
    (hport : (port, r) ∈ ifs)
    (_hvlan_none : r.vlan = none)
    (hvm : (build_model td ignore).vlan_membership.lookup dev = some vt)
    (hvt : (vlanId, vports) ∈ vt) (hvp : port ∈ vports)
    (huniq : ∀ kv ∈ vlanWrites (build_model td ignore),
      kv.1 = portKey dev port → kv.2 = vlanId)
    (hkey : ∀ dp ∈ payloadPorts (build_model td ignore), ∀ p' ∈ dp.2,
      portKey dp.1 p' = portKey dev port → dp.1 = dev ∧ p' = port) :
    ∃ pm, (payload_port_meta (build_model td ignore)).lookup
        (portKey dev port) = some pm ∧
      pm.vlan = some vlanId := by
  obtain ⟨ps, hpp, hp⟩ :=
    PMem_payloadPorts_of_iface (build_model td ignore) hdev hport
  have hvw : (portKey dev port, vlanId) ∈ vlanWrites (build_model td ignore) :=
    vlanWrites_mem (build_model td ignore) hpp hvm hvt hvp
  have hptv : (port_to_vlan (build_model td ignore)).lookup
      (portKey dev port) = some vlanId :=
    lookup_dictOf huniq ⟨(portKey dev port, vlanId), hvw, rfl⟩
  have hmw : (portKey dev port,
      mkPayloadMeta (build_model td ignore) dev port) ∈
      payloadMetaWrites (build_model td ignore) :=
    payloadMetaWrites_mem (build_model td ignore) hpp hp
  have hmuniq : ∀ kv ∈ payloadMetaWrites (build_model td ignore),
      kv.1 = portKey dev port →
      kv.2 = mkPayloadMeta (build_model td ignore) dev port := by
    rintro kv hkv hk1
    rw [payloadMetaWrites] at hkv
    obtain ⟨dp, hdp, hmap⟩ := List.mem_flatMap.mp hkv
    obtain ⟨p', hp', rfl⟩ := List.mem_map.mp hmap
    obtain ⟨hd, hp2⟩ := hkey dp hdp p' hp' hk1
    rw [hd, hp2]
  have hlook : (payload_port_meta (build_model td ignore)).lookup
      (portKey dev port) =
      some (mkPayloadMeta (build_model td ignore) dev port) :=
    lookup_dictOf hmuniq ⟨_, hmw, rfl⟩
  refine ⟨mkPayloadMeta (build_model td ignore) dev port, hlook, ?_⟩
  rw [mkPayloadMeta_vlan, hptv]

theorem claim2_vlan_preference_witness :
    ∃ pm, (payload_port_meta (build_model
        [("X", DeviceData.mk
            [("Eth2", IfaceRec.mk none none none none none none none)]
            [] [("10", ["Eth2"])])]
        ∅)).lookup (portKey "X" "Eth2") = some pm ∧
      pm.vlan = some "10" :=
  claim2_vlan_preference
    [("X", DeviceData.mk
        [("Eth2", IfaceRec.mk none none none none none none none)]
        [] [("10", ["Eth2"])])]
    ∅ "X" "Eth2" "10"
    [("Eth2", IfaceRec.mk none none none none none none none)]
    (IfaceRec.mk none none none none none none none)
    [("10", ["Eth2"])] ["Eth2"]
    (by decide) (by decide) rfl (by decide) (by decide) (by decide)
    (by decide) (by decide)

end SonicLldp
